import Mathlib

set_option maxHeartbeats 1000000

/-!
Verification of the secrets-cleaner retention logic against its source
(`cleaner.go`).  The repository carries two variants of the program: an
earlier one whose disable phase finds the latest enabled version by an
explicit max-scan over creation timestamps (cleaner.go lines 59-120), and a
later one that trusts the store's newest-first listing order, takes the first
element as latest and keeps a configurable number of disabled versions
(cleaner.go lines 261-386).  Both are embedded below as pure functions over
lists of version records; the effectful sweep is embedded as explicit state
passing over a per-secret store together with a trace of issued store calls.
-/

namespace SecretsCleaner

/-- A secret version record as built from the store listing
(`SecretVersion` struct in cleaner.go: `Name string`,
`CreateTimeSeconds int64`, `CreateTimeNanos int32`).  The machine integers
are modelled by `Int`: the program only compares them and never performs
arithmetic on them, so no overflow wrap-around can occur. -/
structure SecretVersion where
  name : String
  createTimeSeconds : Int
  createTimeNanos : Int
  deriving DecidableEq, Repr

/-- The (seconds, nanos) creation-time pair of a version. -/
def SecretVersion.pair (v : SecretVersion) : Int × Int :=
  (v.createTimeSeconds, v.createTimeNanos)

/-- Strict lexicographic order on (seconds, nanos) creation-time pairs:
compare seconds first, nanoseconds on equal seconds. -/
def lexLt (p q : Int × Int) : Prop :=
  p.1 < q.1 ∨ (p.1 = q.1 ∧ p.2 < q.2)

instance (p q : Int × Int) : Decidable (lexLt p q) := by
  unfold lexLt; infer_instance

/-- Reflexive closure of `lexLt`. -/
def lexLe (p q : Int × Int) : Prop :=
  lexLt p q ∨ p = q

instance (p q : Int × Int) : Decidable (lexLe p q) := by
  unfold lexLe; infer_instance

lemma lexLt_irrefl (p : Int × Int) : ¬ lexLt p p := by
  unfold lexLt; omega

lemma lexLt_trans {p q r : Int × Int} (h1 : lexLt p q) (h2 : lexLt q r) :
    lexLt p r := by
  unfold lexLt at *; omega

lemma lexLt_asymm {p q : Int × Int} (h : lexLt p q) : ¬ lexLt q p := by
  unfold lexLt at *; omega

lemma lexLt_total (p q : Int × Int) : lexLt p q ∨ p = q ∨ lexLt q p := by
  unfold lexLt
  rcases p with ⟨a, b⟩
  rcases q with ⟨c, d⟩
  simp only [Prod.mk.injEq]
  omega

lemma lexLe_of_not_lt {p q : Int × Int} (h : ¬ lexLt p q) : lexLe q p := by
  rcases lexLt_total p q with h1 | h1 | h1
  · exact absurd h1 h
  · exact Or.inr h1.symm
  · exact Or.inl h1

lemma not_lt_of_lexLe {p q : Int × Int} (h : lexLe p q) : ¬ lexLt q p := by
  rcases h with h | h
  · exact lexLt_asymm h
  · subst h; exact lexLt_irrefl p

/-! ## Earlier variant: the explicit max-scan selector (cleaner.go lines 81-99)

The Go loop keeps three mutable variables `highestTimestamp` (init 0),
`highestTimestampNano` (init 0) and `latestVerName` (init "") and runs two
sequential `if`s per record; `scanStep` is the loop body on the accumulator
`(highestTimestamp, highestTimestampNano, latestVerName)`. -/

/-- First `if` of the scan loop body (cleaner.go lines 89-93): on a strictly
greater unix-seconds value, take over all three variables. -/
def scanStepSeconds (acc : Int × Int × String) (version : SecretVersion) : Int × Int × String :=
  if version.createTimeSeconds > acc.1 then
    (version.createTimeSeconds, version.createTimeNanos, version.name)
  else acc

/-- Second `if` of the scan loop body (cleaner.go lines 95-98): on equal unix
seconds, compare the nanoseconds part; it reads the accumulator as already
updated by the first `if`. -/
def scanStepNanos (acc : Int × Int × String) (version : SecretVersion) : Int × Int × String :=
  if version.createTimeSeconds = acc.1 ∧ version.createTimeNanos > acc.2.1 then
    (acc.1, version.createTimeNanos, version.name)
  else acc

/-- One iteration of the latest-version scan: the two sequential `if`s of the
Go loop body run on the accumulator
`(highestTimestamp, highestTimestampNano, latestVerName)`. -/
def scanStep (acc : Int × Int × String) (version : SecretVersion) : Int × Int × String :=
  scanStepNanos (scanStepSeconds acc version) version

/-- The name selected as latest by the earlier variant's scan
(cleaner.go lines 82-99), starting from `highestTimestamp = 0`,
`highestTimestampNano = 0`, `latestVerName = ""`. -/
def latestVerName (versions : List SecretVersion) : String :=
  (versions.foldl scanStep (0, 0, "")).2.2

/-- The versions the earlier variant disables: every listed version whose
name differs from `latestVerName` (cleaner.go lines 101-119). -/
def disableSelectionV1 (versions : List SecretVersion) : List SecretVersion :=
  versions.filter (fun version => version.name ≠ latestVerName versions)

/-! ## Later variant: head-taking selector (cleaner.go lines 281-294) -/

/-- The version the later variant treats as latest: the first element of the
listing, which the store documents to be sorted newest-first.  On an empty
listing the Go code evaluates `versions[0].Name` inside the debug log call
at line 290 before any emptiness check and panics with an index-out-of-range
runtime error; that panic outcome is modelled by `none`. -/
def latestVersionV2 (versions : List SecretVersion) : Option SecretVersion :=
  match versions with
  | [] => none
  | v :: _ => some v

/-- The versions the later variant iterates for disabling: `versions[1:]`,
guarded by `(len(versions) - 1) > 0` (cleaner.go lines 292-294); `none`
models the panic on the empty listing, reached before the guard. -/
def disableSelectionV2 (versions : List SecretVersion) : Option (List SecretVersion) :=
  match versions with
  | [] => none
  | _ :: rest => some rest

/-! ## Destroy-phase selection of the later variant (cleaner.go lines 352-354) -/

/-- The disabled versions selected for destruction: when more disabled
versions exist than `keepVersions`, the slice suffix
`versionsDisabled[keepVersions:]` is iterated, otherwise nothing is. -/
def destroySelection (versionsDisabled : List SecretVersion) (keepVersions : Nat) :
    List SecretVersion :=
  if versionsDisabled.length > keepVersions then versionsDisabled.drop keepVersions else []

/-! ## Characterisation of the scan -/

/-- The two sequential `if`s of the scan body amount to a lexicographic
strict-max update that keeps the incumbent on ties. -/
lemma scanStep_eq (hs hn : Int) (nm : String) (v : SecretVersion) :
    scanStep (hs, hn, nm) v =
      if lexLt (hs, hn) v.pair then (v.createTimeSeconds, v.createTimeNanos, v.name)
      else (hs, hn, nm) := by
  unfold scanStep scanStepSeconds scanStepNanos
  by_cases h1 : v.createTimeSeconds > hs
  · rw [if_pos h1]
    rw [if_neg (show ¬ (v.createTimeSeconds = v.createTimeSeconds ∧
      v.createTimeNanos > v.createTimeNanos) by omega)]
    rw [if_pos (show lexLt (hs, hn) v.pair from Or.inl h1)]
  · rw [if_neg h1]
    by_cases h2 : v.createTimeSeconds = hs ∧ v.createTimeNanos > hn
    · rw [if_pos h2]
      rw [if_pos (show lexLt (hs, hn) v.pair from Or.inr ⟨h2.1.symm, h2.2⟩)]
      rw [h2.1]
    · rw [if_neg h2]
      rw [if_neg (show ¬ lexLt (hs, hn) v.pair by
        show ¬ (hs < v.createTimeSeconds ∨
          hs = v.createTimeSeconds ∧ hn < v.createTimeNanos)
        omega)]

/-- If no record of `l` beats the accumulator's pair, the scan leaves the
accumulator unchanged. -/
lemma foldl_scanStep_const (l : List SecretVersion) (hs hn : Int) (nm : String)
    (h : ∀ w ∈ l, ¬ lexLt (hs, hn) w.pair) :
    l.foldl scanStep (hs, hn, nm) = (hs, hn, nm) := by
  induction l with
  | nil => rfl
  | cons x xs ih =>
      rw [List.foldl_cons, scanStep_eq, if_neg (h x (List.mem_cons_self x xs))]
      exact ih (fun w hw => h w (List.mem_cons_of_mem x hw))

/-- If every record of `l` has pair strictly below `b` and the accumulator's
pair is strictly below `b`, the scan result's pair stays strictly below `b`. -/
lemma foldl_scanStep_lt (l : List SecretVersion) (b : Int × Int) :
    ∀ (hs hn : Int) (nm : String), (∀ w ∈ l, lexLt w.pair b) → lexLt (hs, hn) b →
      lexLt ((l.foldl scanStep (hs, hn, nm)).1, (l.foldl scanStep (hs, hn, nm)).2.1) b := by
  induction l with
  | nil => intro hs hn nm _ hacc; exact hacc
  | cons x xs ih =>
      intro hs hn nm hall hacc
      rw [List.foldl_cons, scanStep_eq]
      by_cases hx : lexLt (hs, hn) x.pair
      · rw [if_pos hx]
        exact ih _ _ _ (fun w hw => hall w (List.mem_cons_of_mem x hw))
          (hall x (List.mem_cons_self x xs))
      · rw [if_neg hx]
        exact ih _ _ _ (fun w hw => hall w (List.mem_cons_of_mem x hw)) hacc

/-- The scan returns the name of the first record attaining the maximal
(seconds, nanos) pair, provided that pair is lexicographically above the
(0, 0) initial accumulator. -/
lemma latestVerName_first_max (pre post : List SecretVersion) (v : SecretVersion)
    (hpos : lexLt (0, 0) v.pair)
    (hpre : ∀ w ∈ pre, lexLt w.pair v.pair)
    (hpost : ∀ w ∈ post, ¬ lexLt v.pair w.pair) :
    latestVerName (pre ++ v :: post) = v.name := by
  unfold latestVerName
  rw [List.foldl_append, List.foldl_cons]
  have hacc := foldl_scanStep_lt pre v.pair 0 0 "" hpre hpos
  obtain ⟨a1, a2, a3, heq⟩ : ∃ a1 a2 a3, pre.foldl scanStep (0, 0, "") = (a1, a2, a3) :=
    ⟨_, _, _, rfl⟩
  rw [heq] at hacc ⊢
  rw [scanStep_eq, if_pos hacc]
  rw [foldl_scanStep_const post v.createTimeSeconds v.createTimeNanos v.name
    (by intro w hw; exact hpost w hw)]

example : latestVerName [⟨"a", 10, 0⟩, ⟨"b", 10, 5⟩, ⟨"c", 9, 0⟩] = "b" := by decide

example : destroySelection [⟨"v5", 5, 0⟩, ⟨"v4", 4, 0⟩, ⟨"v3", 3, 0⟩, ⟨"v2", 2, 0⟩, ⟨"v1", 1, 0⟩] 2
    = [⟨"v3", 3, 0⟩, ⟨"v2", 2, 0⟩, ⟨"v1", 1, 0⟩] := by decide

lemma lexLe_trans {p q r : Int × Int} (h1 : lexLe p q) (h2 : lexLe q r) : lexLe p r := by
  rcases h1 with h1 | h1
  · rcases h2 with h2 | h2
    · exact Or.inl (lexLt_trans h1 h2)
    · exact Or.inl (h2 ▸ h1)
  · exact h1 ▸ h2

/-- Every non-empty list decomposes around its first record of maximal
(seconds, nanos) pair: everything before it is strictly below, nothing in the
whole list is strictly above. -/
lemma exists_first_max (l : List SecretVersion) (hne : l ≠ []) :
    ∃ pre v post, l = pre ++ v :: post ∧ (∀ w ∈ pre, lexLt w.pair v.pair) ∧
      ∀ w ∈ l, ¬ lexLt v.pair w.pair := by
  induction l with
  | nil => exact absurd rfl hne
  | cons x xs ih =>
      rcases eq_or_ne xs [] with hxs | hxs
      · subst hxs
        refine ⟨[], x, [], rfl, by simp, ?_⟩
        intro w hw
        rw [List.mem_singleton] at hw
        rw [hw]
        exact lexLt_irrefl _
      · obtain ⟨pre, v, post, heq, hpre, hmax⟩ := ih hxs
        by_cases hx : lexLt x.pair v.pair
        · refine ⟨x :: pre, v, post, by rw [heq]; rfl, ?_, ?_⟩
          · intro w hw
            rcases List.mem_cons.mp hw with h | h
            · rw [h]; exact hx
            · exact hpre w h
          · intro w hw
            rcases List.mem_cons.mp hw with h | h
            · rw [h]; exact lexLt_asymm hx
            · exact hmax w h
        · refine ⟨[], x, xs, rfl, by simp, ?_⟩
          intro w hw
          rcases List.mem_cons.mp hw with h | h
          · rw [h]; exact lexLt_irrefl _
          · exact not_lt_of_lexLe
              (lexLe_trans (lexLe_of_not_lt (hmax w h)) (lexLe_of_not_lt hx))

/-- Removing by name removes exactly the middle record when the names of the
list are pairwise distinct. -/
lemma filter_ne_name (pre post : List SecretVersion) (v : SecretVersion)
    (hnd : ((pre ++ v :: post).map SecretVersion.name).Nodup) :
    (pre ++ v :: post).filter (fun w => w.name ≠ v.name) = pre ++ post := by
  rw [List.map_append, List.map_cons, List.nodup_append] at hnd
  obtain ⟨hpre, hmid, hdisj⟩ := hnd
  have hvpost : v.name ∉ post.map SecretVersion.name := (List.nodup_cons.mp hmid).1
  have hprev : ∀ w ∈ pre, w.name ≠ v.name := by
    intro w hw heq
    exact hdisj (List.mem_map_of_mem _ hw) (by rw [← heq]; exact List.mem_cons_self _ _)
  have hpostv : ∀ w ∈ post, w.name ≠ v.name := by
    intro w hw heq
    exact hvpost (by rw [← heq]; exact List.mem_map_of_mem _ hw)
  have e1 : pre.filter (fun w => w.name ≠ v.name) = pre :=
    List.filter_eq_self.mpr (by intro w hw; simpa using hprev w hw)
  have e2 : post.filter (fun w => w.name ≠ v.name) = post :=
    List.filter_eq_self.mpr (by intro w hw; simpa using hpostv w hw)
  rw [List.filter_append, List.filter_cons, e1, e2]
  simp

/-- C3: for every disabled-version sequence ordered newest-first and every
keep-count, `destroySelection` returns exactly the suffix beyond position
`keepVersions` - that is `max(0, L - K)` records forming the complement of
the `keepVersions`-element newest prefix; empty when `L ≤ K`, and everything
when `keepVersions = 0`. -/
theorem destroySelection_is_suffix_beyond_keep (versionsDisabled : List SecretVersion)
    (keepVersions : Nat)
    (hsorted : versionsDisabled.Pairwise (fun a b => lexLe b.pair a.pair)) :
    destroySelection versionsDisabled keepVersions = versionsDisabled.drop keepVersions
    ∧ (destroySelection versionsDisabled keepVersions).length
        = versionsDisabled.length - keepVersions
    ∧ versionsDisabled
        = versionsDisabled.take keepVersions ++ destroySelection versionsDisabled keepVersions
    ∧ (versionsDisabled.length ≤ keepVersions →
        destroySelection versionsDisabled keepVersions = [])
    ∧ destroySelection versionsDisabled 0 = versionsDisabled := by
  have hmain : destroySelection versionsDisabled keepVersions
      = versionsDisabled.drop keepVersions := by
    unfold destroySelection
    by_cases h : versionsDisabled.length > keepVersions
    · rw [if_pos h]
    · rw [if_neg h]
      rw [List.drop_eq_nil_of_le (by omega)]
  refine ⟨hmain, ?_, ?_, ?_, ?_⟩
  · rw [hmain, List.length_drop]
  · rw [hmain, List.take_append_drop]
  · intro hle
    rw [hmain, List.drop_eq_nil_of_le hle]
  · unfold destroySelection
    cases versionsDisabled <;> simp

theorem destroySelection_is_suffix_beyond_keep_witness :
    destroySelection [⟨"v5", 5, 0⟩, ⟨"v4", 4, 0⟩, ⟨"v3", 3, 0⟩, ⟨"v2", 2, 0⟩, ⟨"v1", 1, 0⟩] 2
        = ([⟨"v5", 5, 0⟩, ⟨"v4", 4, 0⟩, ⟨"v3", 3, 0⟩, ⟨"v2", 2, 0⟩,
            ⟨"v1", 1, 0⟩] : List SecretVersion).drop 2
    ∧ (destroySelection [⟨"v5", 5, 0⟩, ⟨"v4", 4, 0⟩, ⟨"v3", 3, 0⟩, ⟨"v2", 2, 0⟩,
          ⟨"v1", 1, 0⟩] 2).length
        = ([⟨"v5", 5, 0⟩, ⟨"v4", 4, 0⟩, ⟨"v3", 3, 0⟩, ⟨"v2", 2, 0⟩,
            ⟨"v1", 1, 0⟩] : List SecretVersion).length - 2
    ∧ ([⟨"v5", 5, 0⟩, ⟨"v4", 4, 0⟩, ⟨"v3", 3, 0⟩, ⟨"v2", 2, 0⟩,
          ⟨"v1", 1, 0⟩] : List SecretVersion)
        = ([⟨"v5", 5, 0⟩, ⟨"v4", 4, 0⟩, ⟨"v3", 3, 0⟩, ⟨"v2", 2, 0⟩,
            ⟨"v1", 1, 0⟩] : List SecretVersion).take 2
          ++ destroySelection [⟨"v5", 5, 0⟩, ⟨"v4", 4, 0⟩, ⟨"v3", 3, 0⟩, ⟨"v2", 2, 0⟩,
              ⟨"v1", 1, 0⟩] 2
    ∧ (([⟨"v5", 5, 0⟩, ⟨"v4", 4, 0⟩, ⟨"v3", 3, 0⟩, ⟨"v2", 2, 0⟩,
          ⟨"v1", 1, 0⟩] : List SecretVersion).length ≤ 2 →
        destroySelection [⟨"v5", 5, 0⟩, ⟨"v4", 4, 0⟩, ⟨"v3", 3, 0⟩, ⟨"v2", 2, 0⟩,
            ⟨"v1", 1, 0⟩] 2 = [])
    ∧ destroySelection [⟨"v5", 5, 0⟩, ⟨"v4", 4, 0⟩, ⟨"v3", 3, 0⟩, ⟨"v2", 2, 0⟩,
        ⟨"v1", 1, 0⟩] 0
        = [⟨"v5", 5, 0⟩, ⟨"v4", 4, 0⟩, ⟨"v3", 3, 0⟩, ⟨"v2", 2, 0⟩, ⟨"v1", 1, 0⟩] :=
  destroySelection_is_suffix_beyond_keep
    [⟨"v5", 5, 0⟩, ⟨"v4", 4, 0⟩, ⟨"v3", 3, 0⟩, ⟨"v2", 2, 0⟩, ⟨"v1", 1, 0⟩] 2 (by decide)

/-- C6 counterexample: two records tied at the maximal pair (0, 0).  The scan
starts from `highestTimestamp = 0`, `highestTimestampNano = 0` and only
updates on strict improvement, so `latestVerName` stays the initial `""`:
the first-encountered tied record is not picked and in fact every record is
marked for disabling. -/
theorem scan_tie_pick_counterexample :
    latestVerName [⟨"a", 0, 0⟩, ⟨"b", 0, 0⟩] ≠ "a"
    ∧ disableSelectionV1 [⟨"a", 0, 0⟩, ⟨"b", 0, 0⟩]
        = [⟨"a", 0, 0⟩, ⟨"b", 0, 0⟩] := by decide

/-- C6 (amended): provided the maximal (seconds, nanos) pair is
lexicographically greater than the scan's (0, 0) initial accumulator - which
holds for every real creation timestamp - the max-scan deterministically
picks the first record attaining the maximal pair in input order; records
tied with the maximum further down the list never displace it. -/
theorem scan_picks_first_of_tied_maxima (pre post : List SecretVersion) (v : SecretVersion)
    (hpos : lexLt (0, 0) v.pair)
    (hpre : ∀ w ∈ pre, lexLt w.pair v.pair)
    (hpost : ∀ w ∈ post, ¬ lexLt v.pair w.pair) :
    latestVerName (pre ++ v :: post) = v.name :=
  latestVerName_first_max pre post v hpos hpre hpost

theorem scan_picks_first_of_tied_maxima_witness :
    latestVerName [⟨"a", 100, 5⟩, ⟨"b", 100, 5⟩, ⟨"c", 90, 0⟩] = "a" :=
  scan_picks_first_of_tied_maxima [] [⟨"b", 100, 5⟩, ⟨"c", 90, 0⟩] ⟨"a", 100, 5⟩
    (by decide) (by decide) (by decide)

/-- C2 counterexample: the later variant's selector takes `versions[0]` as
latest without re-deriving the maximum, so on input that is not
newest-first-ordered it returns a latest whose pair is strictly below another
record's pair, and marks the true maximum for disabling. -/
theorem select_latest_unordered_counterexample :
    latestVersionV2 [⟨"a", 1, 0⟩, ⟨"b", 2, 0⟩] = some ⟨"a", 1, 0⟩
    ∧ lexLt (SecretVersion.pair ⟨"a", 1, 0⟩) (SecretVersion.pair ⟨"b", 2, 0⟩)
    ∧ disableSelectionV2 [⟨"a", 1, 0⟩, ⟨"b", 2, 0⟩] = some [⟨"b", 2, 0⟩] := by decide

/-- C2 (amended): for every non-empty list of enabled version records with
pairwise-distinct names whose (seconds, nanos) pairs all lie lexicographically
above (0, 0), the earlier variant's max-scan - in any input order - selects
exactly one latest record whose pair is lex-greater-or-equal to every
record's pair and marks exactly the input minus that record for disabling;
the later variant's head-taking selector guarantees the same only when the
input is ordered newest-first. -/
theorem select_latest_and_others_correct (l : List SecretVersion) (hne : l ≠ [])
    (hpos : ∀ w ∈ l, lexLt (0, 0) w.pair)
    (hnd : (l.map SecretVersion.name).Nodup) :
    (∃ pre latest post, l = pre ++ latest :: post
      ∧ latestVerName l = latest.name
      ∧ (∀ w ∈ l, lexLe w.pair latest.pair)
      ∧ disableSelectionV1 l = pre ++ post)
    ∧ (l.Pairwise (fun a b => lexLe b.pair a.pair) →
        ∀ latest rest, l = latest :: rest →
          latestVersionV2 l = some latest
          ∧ (∀ w ∈ l, lexLe w.pair latest.pair)
          ∧ disableSelectionV2 l = some rest) := by
  constructor
  · obtain ⟨pre, v, post, heq, hpre, hmax⟩ := exists_first_max l hne
    have hvmem : v ∈ l := by
      rw [heq]; exact List.mem_append_right _ (List.mem_cons_self _ _)
    have hlatest : latestVerName l = v.name := by
      rw [heq]
      exact latestVerName_first_max pre post v (hpos v hvmem) hpre
        (fun w hw => hmax w (by rw [heq]; exact List.mem_append_right _ (List.mem_cons_of_mem _ hw)))
    refine ⟨pre, v, post, heq, hlatest, fun w hw => lexLe_of_not_lt (hmax w hw), ?_⟩
    unfold disableSelectionV1
    rw [hlatest]
    rw [heq] at hnd ⊢
    exact filter_ne_name pre post v hnd
  · intro hsorted latest rest heq
    subst heq
    refine ⟨rfl, ?_, rfl⟩
    intro w hw
    rcases List.mem_cons.mp hw with h | h
    · exact Or.inr (by rw [h])
    · exact (List.pairwise_cons.mp hsorted).1 w h

theorem select_latest_and_others_correct_witness :
    (∃ pre latest post,
      ([⟨"b", 100, 5⟩, ⟨"a", 100, 0⟩, ⟨"c", 90, 0⟩] : List SecretVersion)
          = pre ++ latest :: post
      ∧ latestVerName [⟨"b", 100, 5⟩, ⟨"a", 100, 0⟩, ⟨"c", 90, 0⟩] = latest.name
      ∧ (∀ w ∈ ([⟨"b", 100, 5⟩, ⟨"a", 100, 0⟩, ⟨"c", 90, 0⟩] : List SecretVersion),
          lexLe w.pair latest.pair)
      ∧ disableSelectionV1 [⟨"b", 100, 5⟩, ⟨"a", 100, 0⟩, ⟨"c", 90, 0⟩] = pre ++ post)
    ∧ (([⟨"b", 100, 5⟩, ⟨"a", 100, 0⟩, ⟨"c", 90, 0⟩] : List SecretVersion).Pairwise
          (fun a b => lexLe b.pair a.pair) →
        ∀ latest rest,
          ([⟨"b", 100, 5⟩, ⟨"a", 100, 0⟩, ⟨"c", 90, 0⟩] : List SecretVersion)
              = latest :: rest →
          latestVersionV2 [⟨"b", 100, 5⟩, ⟨"a", 100, 0⟩, ⟨"c", 90, 0⟩] = some latest
          ∧ (∀ w ∈ ([⟨"b", 100, 5⟩, ⟨"a", 100, 0⟩, ⟨"c", 90, 0⟩] : List SecretVersion),
              lexLe w.pair latest.pair)
          ∧ disableSelectionV2 [⟨"b", 100, 5⟩, ⟨"a", 100, 0⟩, ⟨"c", 90, 0⟩] = some rest) :=
  select_latest_and_others_correct [⟨"b", 100, 5⟩, ⟨"a", 100, 0⟩, ⟨"c", 90, 0⟩]
    (by decide) (by decide) (by decide)

/-- C10 counterexample: on a newest-first-ordered list with positive seconds
in which two records share a name, the two variants pick the same latest name
but mark different version sets for disabling: the earlier variant's
name-based filter drops the duplicate as well. -/
theorem selector_agreement_counterexample :
    ([⟨"a", 5, 0⟩, ⟨"a", 3, 0⟩] : List SecretVersion).Pairwise
        (fun a b => lexLe b.pair a.pair)
    ∧ (∀ w ∈ ([⟨"a", 5, 0⟩, ⟨"a", 3, 0⟩] : List SecretVersion), 0 < w.createTimeSeconds)
    ∧ latestVerName [⟨"a", 5, 0⟩, ⟨"a", 3, 0⟩] = "a"
    ∧ disableSelectionV1 [⟨"a", 5, 0⟩, ⟨"a", 3, 0⟩] = []
    ∧ disableSelectionV2 [⟨"a", 5, 0⟩, ⟨"a", 3, 0⟩] = some [⟨"a", 3, 0⟩] := by decide

/-- C10 (amended): on every non-empty version list ordered newest-first by
(seconds, nanos) descending, with positive seconds and pairwise-distinct
names, the earlier variant's max-scan and the later variant's head-taking
selector agree: both pick the first element's name as latest and both mark
exactly the remaining records for disabling. -/
theorem selectors_agree_on_sorted (latest : SecretVersion) (rest : List SecretVersion)
    (hsorted : (latest :: rest).Pairwise (fun a b => lexLe b.pair a.pair))
    (hpos : ∀ w ∈ latest :: rest, 0 < w.createTimeSeconds)
    (hnd : ((latest :: rest).map SecretVersion.name).Nodup) :
    latestVerName (latest :: rest) = latest.name
    ∧ latestVersionV2 (latest :: rest) = some latest
    ∧ disableSelectionV1 (latest :: rest) = rest
    ∧ disableSelectionV2 (latest :: rest) = some rest := by
  have hpost : ∀ w ∈ rest, ¬ lexLt latest.pair w.pair := by
    intro w hw
    exact not_lt_of_lexLe ((List.pairwise_cons.mp hsorted).1 w hw)
  have hlatest : latestVerName (latest :: rest) = latest.name := by
    have := latestVerName_first_max [] rest latest
      (Or.inl (hpos latest (List.mem_cons_self _ _))) (by simp) hpost
    simpa using this
  refine ⟨hlatest, rfl, ?_, rfl⟩
  unfold disableSelectionV1
  rw [hlatest]
  have := filter_ne_name [] rest latest (by simpa using hnd)
  simpa using this

theorem selectors_agree_on_sorted_witness :
    latestVerName [⟨"b", 100, 5⟩, ⟨"a", 100, 0⟩, ⟨"c", 90, 0⟩] = "b"
    ∧ latestVersionV2 [⟨"b", 100, 5⟩, ⟨"a", 100, 0⟩, ⟨"c", 90, 0⟩]
        = some ⟨"b", 100, 5⟩
    ∧ disableSelectionV1 [⟨"b", 100, 5⟩, ⟨"a", 100, 0⟩, ⟨"c", 90, 0⟩]
        = [⟨"a", 100, 0⟩, ⟨"c", 90, 0⟩]
    ∧ disableSelectionV2 [⟨"b", 100, 5⟩, ⟨"a", 100, 0⟩, ⟨"c", 90, 0⟩]
        = some [⟨"a", 100, 0⟩, ⟨"c", 90, 0⟩] :=
  selectors_agree_on_sorted ⟨"b", 100, 5⟩ [⟨"a", 100, 0⟩, ⟨"c", 90, 0⟩]
    (by decide) (by decide) (by decide)

/-! ## Per-secret store model for the sweep (later variant)

The sweep of one secret (main loop body, cleaner.go lines 468-471) is
embedded as explicit state passing over the list of that secret's versions
held by the store, together with a trace of the store calls the program
issues.  The store applies a mutation as soon as the call is issued
(read-your-writes consistency, as assumed by the spec). -/

/-- Lifecycle state of a stored secret version. -/
inductive VersionState where
  | ENABLED
  | DISABLED
  | DESTROYED
  deriving DecidableEq, Repr

/-- One version as held by the store: the record data reported by listing
plus the lifecycle state that the list filter and the mutations act on. -/
structure StoreVersion where
  version : SecretVersion
  state : VersionState
  deriving DecidableEq, Repr

/-- `ListSecretVersions` with a `state:<st>` filter over one secret's
versions: the records of the versions in that state, in stored order (the
store keeps versions newest-first, which the model leaves to hypotheses). -/
def listVersions (s : List StoreVersion) (st : VersionState) : List SecretVersion :=
  (s.filter (fun w => w.state = st)).map (fun w => w.version)

/-- Effect of the per-name mutation calls (`DisableSecretVersion`,
`DestroySecretVersion`) on the store: every version whose name occurs in
`names` moves to state `st`. -/
def applyState (s : List StoreVersion) (names : List String) (st : VersionState) :
    List StoreVersion :=
  s.map (fun w => if w.version.name ∈ names then { w with state := st } else w)

/-- A store call issued by the sweep of one secret. -/
inductive StoreCall where
  | listCall (st : VersionState)
  | disableCall (nm : String)
  | destroyCall (nm : String)
  deriving DecidableEq, Repr

/-- Listing is the only non-mutating call. -/
def StoreCall.isMutating : StoreCall → Bool
  | .listCall _ => false
  | .disableCall _ => true
  | .destroyCall _ => true

/-- Disable phase of the later variant (cleaner.go lines 261-327): list the
ENABLED versions, treat `versions[0]` as the latest, and disable
`versions[1:]` (in dry-run, only record the intent and issue no mutation).
On an empty listing the debug log at line 290 evaluates `versions[0].Name`
before the emptiness guard and the program panics with an index-out-of-range
runtime error, modelled by `none`.  Returns the issued calls and, when no
panic occurs, the resulting store and the names selected for disabling. -/
def disablePhaseRun (dryrun : Bool) (s : List StoreVersion) :
    List StoreCall × Option (List StoreVersion × List String) :=
  match listVersions s .ENABLED with
  | [] => ([.listCall .ENABLED], none)
  | _ :: rest =>
      let sel := rest.map SecretVersion.name
      if dryrun then
        ([.listCall .ENABLED], some (s, sel))
      else
        (.listCall .ENABLED :: sel.map StoreCall.disableCall,
          some (applyState s sel .DISABLED, sel))

/-- Destroy phase of the later variant (cleaner.go lines 330-386): list the
DISABLED versions afresh and destroy the suffix beyond `keepVersions` (in
dry-run, only record the intent).  Returns the issued calls, the resulting
store and the names selected for destruction. -/
def destroyPhaseRun (dryrun : Bool) (keepVersions : Nat) (s : List StoreVersion) :
    List StoreCall × List StoreVersion × List String :=
  let sel := (destroySelection (listVersions s .DISABLED) keepVersions).map SecretVersion.name
  if dryrun then
    ([.listCall .DISABLED], s, sel)
  else
    (.listCall .DISABLED :: sel.map StoreCall.destroyCall,
      applyState s sel .DESTROYED, sel)

/-- One secret's full sweep (cleaner.go lines 468-471): the disable phase
runs to completion, then the destroy phase lists afresh and runs on the
store state the disable phase left behind.  Returns the full call trace and,
when no panic occurs, the final store together with the disable-phase and
destroy-phase selections. -/
def sweepRun (dryrun : Bool) (keepVersions : Nat) (s : List StoreVersion) :
    List StoreCall × Option (List StoreVersion × List String × List String) :=
  match disablePhaseRun dryrun s with
  | (t1, none) => (t1, none)
  | (t1, some (s1, selDisable)) =>
      let r2 := destroyPhaseRun dryrun keepVersions s1
      (t1 ++ r2.1, some (r2.2.1, selDisable, r2.2.2))

/-- C1 (code bug): the spec declares the empty ENABLED listing a valid,
non-error no-op, but the later variant's disable phase panics on it (index
out of range at `versions[0].Name`, evaluated in the debug log before the
emptiness guard, in live and dry-run mode alike); only the earlier variant's
scan treats it as a true no-op that disables nothing. -/
theorem disable_phase_empty_listing_panics :
    disablePhaseRun false [⟨⟨"old", 1, 0⟩, .DISABLED⟩] = ([.listCall .ENABLED], none)
    ∧ disablePhaseRun true [⟨⟨"old", 1, 0⟩, .DISABLED⟩] = ([.listCall .ENABLED], none)
    ∧ disableSelectionV2 [] = none
    ∧ latestVersionV2 [] = none
    ∧ disableSelectionV1 [] = [] := by decide

/-! ### Facts about `applyState` and the filters -/

lemma applyState_map_name (s : List StoreVersion) (names : List String) (st : VersionState) :
    (applyState s names st).map (fun w => w.version.name)
      = s.map (fun w => w.version.name) := by
  unfold applyState
  rw [List.map_map]
  refine List.map_congr_left ?_
  intro w _
  by_cases h : w.version.name ∈ names
  · simp [Function.comp, h]
  · simp [Function.comp, h]

/-- Moving the named versions into state `st` leaves, among the versions in
an unrelated state `st'`, exactly the unnamed ones. -/
lemma applyState_filter_state_ne (s : List StoreVersion) (names : List String)
    (st st' : VersionState) (h : st ≠ st') :
    (applyState s names st).filter (fun w => w.state = st')
      = s.filter (fun w => decide (w.version.name ∉ names) && decide (w.state = st')) := by
  unfold applyState
  rw [List.filter_map]
  have h1 : s.filter ((fun w => decide (w.state = st')) ∘
      (fun w => if w.version.name ∈ names then { w with state := st } else w))
      = s.filter (fun w => decide (w.version.name ∉ names) && decide (w.state = st')) := by
    refine List.filter_congr ?_
    intro w _
    by_cases hw : w.version.name ∈ names
    · simp [Function.comp, hw, h]
    · simp [Function.comp, hw]
  rw [h1]
  have h2 : ∀ w ∈ s.filter
      (fun w => decide (w.version.name ∉ names) && decide (w.state = st')),
      (if w.version.name ∈ names then ({ w with state := st } : StoreVersion) else w) = w := by
    intro w hw
    rw [List.mem_filter] at hw
    have hnm : w.version.name ∉ names := by
      have h3 := hw.2
      simp only [Bool.and_eq_true, decide_eq_true_eq] at h3
      exact h3.1
    rw [if_neg hnm]
  rw [List.map_congr_left h2]
  simp

/-- Filtering away a name suffix with pairwise distinct names keeps exactly
the prefix. -/
lemma filter_not_mem_names (A B : List StoreVersion)
    (hdisj : ∀ w ∈ A, w.version.name ∉ B.map (fun u => u.version.name)) :
    (A ++ B).filter (fun w => w.version.name ∉ B.map (fun u => u.version.name)) = A := by
  rw [List.filter_append]
  have e1 : A.filter (fun w => w.version.name ∉ B.map (fun u => u.version.name)) = A :=
    List.filter_eq_self.mpr (by intro w hw; simpa using hdisj w hw)
  have e2 : B.filter (fun w => w.version.name ∉ B.map (fun u => u.version.name)) = [] := by
    rw [List.filter_eq_nil_iff]
    intro w hw
    simp only [decide_not, Bool.not_eq_true', decide_eq_false_iff_not, Decidable.not_not]
    exact List.mem_map_of_mem _ hw
  rw [e1, e2, List.append_nil]

lemma disablePhaseRun_empty (dryrun : Bool) (s : List StoreVersion)
    (h : listVersions s .ENABLED = []) :
    disablePhaseRun dryrun s = ([.listCall .ENABLED], none) := by
  unfold disablePhaseRun
  rw [h]

lemma disablePhaseRun_cons_live (s : List StoreVersion) (e0 : SecretVersion)
    (rest : List SecretVersion) (h : listVersions s .ENABLED = e0 :: rest) :
    disablePhaseRun false s
      = (.listCall .ENABLED :: (rest.map SecretVersion.name).map StoreCall.disableCall,
        some (applyState s (rest.map SecretVersion.name) .DISABLED,
          rest.map SecretVersion.name)) := by
  unfold disablePhaseRun
  rw [h]
  rfl

lemma filter_and_decomp (l : List StoreVersion) (names : List String) (st' : VersionState) :
    l.filter (fun w => decide (w.version.name ∉ names) && decide (w.state = st'))
      = (l.filter (fun w => w.state = st')).filter (fun w => w.version.name ∉ names) := by
  induction l with
  | nil => rfl
  | cons x xs ih =>
      by_cases h1 : x.state = st' <;> by_cases h2 : x.version.name ∈ names <;>
        simp [List.filter_cons, h1, h2, ih]

/-- Listing state `st'` after the store moved the named versions into a
different state `st`: exactly the previously-`st'` versions whose names were
not touched remain. -/
lemma listVersions_applyState_ne (s : List StoreVersion) (names : List String)
    (st st' : VersionState) (h : st ≠ st') :
    listVersions (applyState s names st) st'
      = ((s.filter (fun w => w.state = st')).filter
          (fun w => w.version.name ∉ names)).map (fun w => w.version) := by
  unfold listVersions
  rw [applyState_filter_state_ne s names st st' h, filter_and_decomp]

/-- After the live disable phase on a store with pairwise-distinct version
names, the head of the former ENABLED listing is the only ENABLED version
left. -/
lemma enabled_after_disable (s : List StoreVersion) (e0 : SecretVersion)
    (rest : List SecretVersion)
    (hnd : (s.map (fun w => w.version.name)).Nodup)
    (henb : listVersions s .ENABLED = e0 :: rest) :
    listVersions (applyState s (rest.map SecretVersion.name) .DISABLED) .ENABLED = [e0] := by
  rw [listVersions_applyState_ne _ _ _ _ (by decide : VersionState.DISABLED ≠ .ENABLED)]
  unfold listVersions at henb
  rcases hE : s.filter (fun w => w.state = VersionState.ENABLED) with _ | ⟨w0, W⟩
  · rw [hE] at henb; simp at henb
  · rw [hE] at henb ⊢
    rw [List.map_cons] at henb
    injection henb with h0 hW
    have hsub : (s.filter (fun w => w.state = VersionState.ENABLED)).Sublist s :=
      List.filter_sublist s
    rw [hE] at hsub
    have hEnd : ((w0 :: W).map (fun w => w.version.name)).Nodup :=
      hnd.sublist (hsub.map (fun w => w.version.name))
    rw [List.map_cons] at hEnd
    have hw0 : w0.version.name ∉ W.map (fun u => u.version.name) :=
      (List.nodup_cons.mp hEnd).1
    have hrw : rest.map SecretVersion.name = W.map (fun u => u.version.name) := by
      rw [← hW, List.map_map]
      rfl
    rw [hrw]
    have hfil : (w0 :: W).filter
        (fun w => w.version.name ∉ W.map (fun u => u.version.name)) = [w0] := by
      have hone := filter_not_mem_names [w0] W
        (by intro w hw; rw [List.mem_singleton] at hw; rw [hw]; exact hw0)
      simpa using hone
    rw [hfil, List.map_cons, List.map_nil, h0]

/-- After the live destroy phase on a store with pairwise-distinct version
names, at most `keepVersions` DISABLED versions remain. -/
lemma disabled_after_destroy_le (s1 : List StoreVersion) (keepVersions : Nat)
    (hnd : (s1.map (fun w => w.version.name)).Nodup) :
    (listVersions (applyState s1
        ((destroySelection (listVersions s1 .DISABLED) keepVersions).map SecretVersion.name)
        .DESTROYED) .DISABLED).length ≤ keepVersions := by
  rw [listVersions_applyState_ne _ _ _ _ (by decide : VersionState.DESTROYED ≠ .DISABLED)]
  rw [List.length_map]
  set D := s1.filter (fun w => w.state = VersionState.DISABLED) with hD
  have hDnd : (D.map (fun w => w.version.name)).Nodup := by
    have hsub : D.Sublist s1 := by rw [hD]; exact List.filter_sublist s1
    exact hnd.sublist (hsub.map (fun w => w.version.name))
  by_cases hlen : (listVersions s1 .DISABLED).length > keepVersions
  · have hsel : destroySelection (listVersions s1 .DISABLED) keepVersions
        = (listVersions s1 .DISABLED).drop keepVersions := by
      unfold destroySelection; rw [if_pos hlen]
    have hnames : (destroySelection (listVersions s1 .DISABLED) keepVersions).map
          SecretVersion.name
        = (D.drop keepVersions).map (fun u => u.version.name) := by
      rw [hsel]
      unfold listVersions
      rw [← hD, ← List.map_drop, List.map_map]
      rfl
    rw [hnames]
    have hdisj : ∀ w ∈ D.take keepVersions,
        w.version.name ∉ (D.drop keepVersions).map (fun u => u.version.name) := by
      intro w hw
      have hnd2 := hDnd
      rw [← List.take_append_drop keepVersions D, List.map_append, List.nodup_append] at hnd2
      exact fun hc => hnd2.2.2 (List.mem_map_of_mem _ hw) hc
    have hsplit : D.filter
        (fun w => w.version.name ∉ (D.drop keepVersions).map (fun u => u.version.name))
        = D.take keepVersions := by
      have hfil := filter_not_mem_names (D.take keepVersions) (D.drop keepVersions) hdisj
      rw [List.take_append_drop] at hfil
      exact hfil
    rw [hsplit]
    exact List.length_take_le _ _
  · have hsel : destroySelection (listVersions s1 .DISABLED) keepVersions = [] := by
      unfold destroySelection; rw [if_neg hlen]
    rw [hsel, List.map_nil]
    have hall : D.filter (fun w => w.version.name ∉ ([] : List String)) = D :=
      List.filter_eq_self.mpr (by intro w hw; simp)
    rw [hall]
    have hDlen : (listVersions s1 .DISABLED).length = D.length := by
      unfold listVersions
      rw [← hD, List.length_map]
    omega

/-- C4: after a successful live-mode sweep of a secret whose version names
are pairwise distinct, the store (applying each mutation as soon as the call
is issued, i.e. read-your-writes consistency) holds at most one ENABLED
version of that secret and at most `keepVersions` DISABLED versions. -/
theorem sweep_invariant_enabled_disabled (s : List StoreVersion) (keepVersions : Nat)
    (tr : List StoreCall) (s2 : List StoreVersion) (selD selX : List String)
    (hnd : (s.map (fun w => w.version.name)).Nodup)
    (hrun : sweepRun false keepVersions s = (tr, some (s2, selD, selX))) :
    (listVersions s2 .ENABLED).length ≤ 1
    ∧ (listVersions s2 .DISABLED).length ≤ keepVersions := by
  rcases henb : listVersions s .ENABLED with _ | ⟨e0, rest⟩
  · unfold sweepRun at hrun
    rw [disablePhaseRun_empty false s henb] at hrun
    simp at hrun
  · unfold sweepRun at hrun
    rw [disablePhaseRun_cons_live s e0 rest henb] at hrun
    dsimp only at hrun
    set s1 := applyState s (rest.map SecretVersion.name) VersionState.DISABLED with hs1
    have hdest : destroyPhaseRun false keepVersions s1
        = (.listCall .DISABLED ::
            ((destroySelection (listVersions s1 .DISABLED) keepVersions).map
              SecretVersion.name).map StoreCall.destroyCall,
          applyState s1
            ((destroySelection (listVersions s1 .DISABLED) keepVersions).map
              SecretVersion.name) .DESTROYED,
          (destroySelection (listVersions s1 .DISABLED) keepVersions).map
            SecretVersion.name) := rfl
    rw [hdest] at hrun
    simp only [Prod.mk.injEq, Option.some.injEq] at hrun
    obtain ⟨htr, hs2, hselD, hselX⟩ := hrun
    have hnd1 : (s1.map (fun w => w.version.name)).Nodup := by
      rw [hs1, applyState_map_name]
      exact hnd
    have hen1 : listVersions s1 .ENABLED = [e0] := by
      rw [hs1]
      exact enabled_after_disable s e0 rest hnd henb
    have hlen1 : (s1.filter (fun w => w.state = VersionState.ENABLED)).length = 1 := by
      have hlv : (listVersions s1 .ENABLED).length = 1 := by rw [hen1]; rfl
      unfold listVersions at hlv
      rw [List.length_map] at hlv
      exact hlv
    rw [← hs2]
    constructor
    · rw [listVersions_applyState_ne _ _ _ _ (by decide : VersionState.DESTROYED ≠ .ENABLED)]
      rw [List.length_map]
      calc ((s1.filter (fun w => w.state = VersionState.ENABLED)).filter
            (fun w => w.version.name ∉ (destroySelection (listVersions s1 .DISABLED)
              keepVersions).map SecretVersion.name)).length
          ≤ (s1.filter (fun w => w.state = VersionState.ENABLED)).length :=
            List.length_filter_le _ _
        _ = 1 := hlen1
    · exact disabled_after_destroy_le s1 keepVersions hnd1

theorem sweep_invariant_enabled_disabled_witness :
    (listVersions [⟨⟨"v2", 2, 0⟩, .ENABLED⟩, ⟨⟨"v1", 1, 0⟩, .DESTROYED⟩] .ENABLED).length ≤ 1
    ∧ (listVersions [⟨⟨"v2", 2, 0⟩, .ENABLED⟩, ⟨⟨"v1", 1, 0⟩, .DESTROYED⟩] .DISABLED).length
        ≤ 0 :=
  sweep_invariant_enabled_disabled
    [⟨⟨"v2", 2, 0⟩, .ENABLED⟩, ⟨⟨"v1", 1, 0⟩, .ENABLED⟩] 0
    [.listCall .ENABLED, .disableCall "v1", .listCall .DISABLED, .destroyCall "v1"]
    [⟨⟨"v2", 2, 0⟩, .ENABLED⟩, ⟨⟨"v1", 1, 0⟩, .DESTROYED⟩]
    ["v1"] ["v1"] (by decide) (by decide)

lemma applyState_nil (s : List StoreVersion) (st : VersionState) : applyState s [] st = s := by
  unfold applyState
  have hid : ∀ w ∈ s,
      (if w.version.name ∈ ([] : List String) then ({ w with state := st } : StoreVersion)
        else w) = w := by
    intro w _
    rw [if_neg (List.not_mem_nil _)]
  rw [List.map_congr_left hid]
  simp

lemma disablePhaseRun_cons_dry (s : List StoreVersion) (e0 : SecretVersion)
    (rest : List SecretVersion) (h : listVersions s .ENABLED = e0 :: rest) :
    disablePhaseRun true s
      = ([.listCall .ENABLED], some (s, rest.map SecretVersion.name)) := by
  unfold disablePhaseRun
  rw [h]
  rfl

lemma sweepRun_empty (dryrun : Bool) (keepVersions : Nat) (s : List StoreVersion)
    (h : listVersions s .ENABLED = []) :
    sweepRun dryrun keepVersions s = ([.listCall .ENABLED], none) := by
  unfold sweepRun
  rw [disablePhaseRun_empty dryrun s h]

lemma sweepRun_cons_dry (keepVersions : Nat) (s : List StoreVersion) (e0 : SecretVersion)
    (rest : List SecretVersion) (h : listVersions s .ENABLED = e0 :: rest) :
    sweepRun true keepVersions s
      = ([.listCall .ENABLED, .listCall .DISABLED],
        some (s, rest.map SecretVersion.name,
          (destroySelection (listVersions s .DISABLED) keepVersions).map
            SecretVersion.name)) := by
  unfold sweepRun
  rw [disablePhaseRun_cons_dry s e0 rest h]
  rfl

lemma sweepRun_cons_live (keepVersions : Nat) (s : List StoreVersion) (e0 : SecretVersion)
    (rest : List SecretVersion) (h : listVersions s .ENABLED = e0 :: rest) :
    sweepRun false keepVersions s
      = (.listCall .ENABLED :: (rest.map SecretVersion.name).map StoreCall.disableCall
          ++ .listCall .DISABLED ::
            ((destroySelection
              (listVersions (applyState s (rest.map SecretVersion.name) .DISABLED) .DISABLED)
              keepVersions).map SecretVersion.name).map StoreCall.destroyCall,
        some (applyState (applyState s (rest.map SecretVersion.name) .DISABLED)
            ((destroySelection
              (listVersions (applyState s (rest.map SecretVersion.name) .DISABLED) .DISABLED)
              keepVersions).map SecretVersion.name) .DESTROYED,
          rest.map SecretVersion.name,
          (destroySelection
            (listVersions (applyState s (rest.map SecretVersion.name) .DISABLED) .DISABLED)
            keepVersions).map SecretVersion.name)) := by
  unfold sweepRun
  rw [disablePhaseRun_cons_live s e0 rest h]
  rfl

/-- Disable-phase selection reported by a sweep run (`none` on the panic
path). -/
def disableSelections
    (r : List StoreCall × Option (List StoreVersion × List String × List String)) :
    Option (List String) :=
  r.2.map (fun x => x.2.1)

/-- Destroy-phase selection reported by a sweep run (`none` on the panic
path). -/
def destroySelections
    (r : List StoreCall × Option (List StoreVersion × List String × List String)) :
    Option (List String) :=
  r.2.map (fun x => x.2.2)

/-- C5 counterexample: on a store with two ENABLED versions, no DISABLED
versions and `keepVersions = 0`, the live run first disables the older
version and then selects it for destruction, while the dry run - whose
disable phase mutated nothing - finds no DISABLED versions and selects
nothing to destroy: dry-run and live runs do not compute identical destroy
selection sets over the identical initial store state. -/
theorem dryrun_destroy_selection_counterexample :
    destroySelections (sweepRun true 0
        [⟨⟨"v2", 2, 0⟩, .ENABLED⟩, ⟨⟨"v1", 1, 0⟩, .ENABLED⟩]) = some []
    ∧ destroySelections (sweepRun false 0
        [⟨⟨"v2", 2, 0⟩, .ENABLED⟩, ⟨⟨"v1", 1, 0⟩, .ENABLED⟩]) = some ["v1"] := by decide

/-- C5 (amended): for every store state, a dry-run sweep issues no mutating
store call whatsoever (on the panic path only the ENABLED listing was
issued) and computes the same disable selection as a live run over the
identical store state; its destroy selection, however, is computed over the
pre-disable store, so it is guaranteed to match the live run's only when the
disable phase selects nothing. -/
theorem dryrun_no_mutations_same_disable_selection (keepVersions : Nat)
    (s : List StoreVersion) :
    (∀ c ∈ (sweepRun true keepVersions s).1, c.isMutating = false)
    ∧ disableSelections (sweepRun true keepVersions s)
        = disableSelections (sweepRun false keepVersions s)
    ∧ (disableSelections (sweepRun false keepVersions s) = some [] →
        destroySelections (sweepRun true keepVersions s)
          = destroySelections (sweepRun false keepVersions s)) := by
  rcases henb : listVersions s .ENABLED with _ | ⟨e0, rest⟩
  · rw [sweepRun_empty true keepVersions s henb, sweepRun_empty false keepVersions s henb]
    refine ⟨?_, rfl, fun _ => rfl⟩
    intro c hc
    rw [List.mem_singleton] at hc
    rw [hc]
    rfl
  · rw [sweepRun_cons_dry keepVersions s e0 rest henb,
      sweepRun_cons_live keepVersions s e0 rest henb]
    refine ⟨?_, rfl, ?_⟩
    · intro c hc
      simp only [List.mem_cons, List.mem_singleton, List.not_mem_nil] at hc
      rcases hc with h | h | h
      · rw [h]; rfl
      · rw [h]; rfl
      · exact absurd h (by simp)
    · intro hsel
      have hrest : rest.map SecretVersion.name = [] := by
        simpa [disableSelections] using hsel
      simp [destroySelections, hrest, applyState_nil]

theorem dryrun_no_mutations_same_disable_selection_witness :
    (∀ c ∈ (sweepRun true 2 [⟨⟨"v2", 2, 0⟩, .ENABLED⟩, ⟨⟨"v1", 1, 0⟩, .DISABLED⟩]).1,
        c.isMutating = false)
    ∧ disableSelections (sweepRun true 2
          [⟨⟨"v2", 2, 0⟩, .ENABLED⟩, ⟨⟨"v1", 1, 0⟩, .DISABLED⟩])
        = disableSelections (sweepRun false 2
          [⟨⟨"v2", 2, 0⟩, .ENABLED⟩, ⟨⟨"v1", 1, 0⟩, .DISABLED⟩])
    ∧ (disableSelections (sweepRun false 2
          [⟨⟨"v2", 2, 0⟩, .ENABLED⟩, ⟨⟨"v1", 1, 0⟩, .DISABLED⟩]) = some [] →
        destroySelections (sweepRun true 2
            [⟨⟨"v2", 2, 0⟩, .ENABLED⟩, ⟨⟨"v1", 1, 0⟩, .DISABLED⟩])
          = destroySelections (sweepRun false 2
            [⟨⟨"v2", 2, 0⟩, .ENABLED⟩, ⟨⟨"v1", 1, 0⟩, .DISABLED⟩])) :=
  dryrun_no_mutations_same_disable_selection 2
    [⟨⟨"v2", 2, 0⟩, .ENABLED⟩, ⟨⟨"v1", 1, 0⟩, .DISABLED⟩]

/-- C8: a secret already at steady state - exactly one ENABLED version and
at most `keepVersions` DISABLED versions - sweeps to exactly itself in live
mode: both selections are empty, the trace holds only the two listing calls
(no mutating call), and the store is returned unchanged, so a second
consecutive sweep is the very same no-op. -/
theorem sweep_steady_state_noop (keepVersions : Nat) (s : List StoreVersion)
    (e0 : SecretVersion)
    (henb : listVersions s .ENABLED = [e0])
    (hdis : (listVersions s .DISABLED).length ≤ keepVersions) :
    sweepRun false keepVersions s
      = ([.listCall .ENABLED, .listCall .DISABLED], some (s, [], [])) := by
  rw [sweepRun_cons_live keepVersions s e0 [] henb]
  have hsel : destroySelection (listVersions s .DISABLED) keepVersions = [] := by
    unfold destroySelection
    rw [if_neg (by omega)]
  simp [applyState_nil, hsel]

theorem sweep_steady_state_noop_witness :
    sweepRun false 2 [⟨⟨"v2", 2, 0⟩, .ENABLED⟩, ⟨⟨"v1", 1, 0⟩, .DISABLED⟩]
      = ([.listCall .ENABLED, .listCall .DISABLED],
        some ([⟨⟨"v2", 2, 0⟩, .ENABLED⟩, ⟨⟨"v1", 1, 0⟩, .DISABLED⟩], [], [])) :=
  sweep_steady_state_noop 2 [⟨⟨"v2", 2, 0⟩, .ENABLED⟩, ⟨⟨"v1", 1, 0⟩, .DISABLED⟩]
    ⟨"v2", 2, 0⟩ (by decide) (by decide)

/-- C9: the sweep of one secret runs the destroy phase strictly after the
disable phase has completed: the full call trace is the disable-phase trace
followed by the destroy-phase trace, the latter begins with a fresh
DISABLED-state listing, and the destroy selection is computed from the
post-disable-phase store rather than from the disable phase's view. -/
theorem destroy_phase_after_disable_phase (dryrun : Bool) (keepVersions : Nat)
    (s s1 : List StoreVersion) (t1 : List StoreCall) (selD : List String)
    (hdp : disablePhaseRun dryrun s = (t1, some (s1, selD))) :
    (sweepRun dryrun keepVersions s).1
        = t1 ++ (destroyPhaseRun dryrun keepVersions s1).1
    ∧ (destroyPhaseRun dryrun keepVersions s1).1.head? = some (.listCall .DISABLED)
    ∧ (destroyPhaseRun dryrun keepVersions s1).2.2
        = (destroySelection (listVersions s1 .DISABLED) keepVersions).map SecretVersion.name
    ∧ (sweepRun dryrun keepVersions s).2
        = some ((destroyPhaseRun dryrun keepVersions s1).2.1, selD,
            (destroySelection (listVersions s1 .DISABLED) keepVersions).map
              SecretVersion.name) := by
  unfold sweepRun
  rw [hdp]
  cases dryrun <;> exact ⟨rfl, rfl, rfl, rfl⟩

theorem destroy_phase_after_disable_phase_witness :
    (sweepRun false 1 [⟨⟨"v2", 2, 0⟩, .ENABLED⟩, ⟨⟨"v1", 1, 0⟩, .ENABLED⟩]).1
        = [.listCall .ENABLED, .disableCall "v1"]
          ++ (destroyPhaseRun false 1 [⟨⟨"v2", 2, 0⟩, .ENABLED⟩, ⟨⟨"v1", 1, 0⟩, .DISABLED⟩]).1
    ∧ (destroyPhaseRun false 1 [⟨⟨"v2", 2, 0⟩, .ENABLED⟩, ⟨⟨"v1", 1, 0⟩, .DISABLED⟩]).1.head?
        = some (.listCall .DISABLED)
    ∧ (destroyPhaseRun false 1 [⟨⟨"v2", 2, 0⟩, .ENABLED⟩, ⟨⟨"v1", 1, 0⟩, .DISABLED⟩]).2.2
        = (destroySelection
            (listVersions [⟨⟨"v2", 2, 0⟩, .ENABLED⟩, ⟨⟨"v1", 1, 0⟩, .DISABLED⟩] .DISABLED)
            1).map SecretVersion.name
    ∧ (sweepRun false 1 [⟨⟨"v2", 2, 0⟩, .ENABLED⟩, ⟨⟨"v1", 1, 0⟩, .ENABLED⟩]).2
        = some ((destroyPhaseRun false 1
              [⟨⟨"v2", 2, 0⟩, .ENABLED⟩, ⟨⟨"v1", 1, 0⟩, .DISABLED⟩]).2.1, ["v1"],
            (destroySelection
              (listVersions [⟨⟨"v2", 2, 0⟩, .ENABLED⟩, ⟨⟨"v1", 1, 0⟩, .DISABLED⟩] .DISABLED)
              1).map SecretVersion.name) :=
  destroy_phase_after_disable_phase false 1
    [⟨⟨"v2", 2, 0⟩, .ENABLED⟩, ⟨⟨"v1", 1, 0⟩, .ENABLED⟩]
    [⟨⟨"v2", 2, 0⟩, .ENABLED⟩, ⟨⟨"v1", 1, 0⟩, .DISABLED⟩]
    [.listCall .ENABLED, .disableCall "v1"] ["v1"] (by decide)

/-! ## Failure model for the whole run (later variant)

`logrus.Fatalf` logs and terminates the process with a nonzero exit code;
a fatal outcome is modelled by `Except.error`.  The store's responses are
modelled by an environment assigning each call its result, and a run yields
the trace of calls issued before termination together with the outcome. -/

/-- A store call, tagged with the secret it concerns. -/
inductive ApiCall where
  | listVersionsA (secret : String) (st : VersionState)
  | disableA (nm : String)
  | destroyA (nm : String)
  deriving DecidableEq, Repr

/-- The store's responses: listing results per secret and state filter, and
per-name outcomes of the two mutations; `Except.error` models a failed
call. -/
structure Env where
  listVersionsE : String → VersionState → Except String (List SecretVersion)
  disableE : String → Except String Unit
  destroyE : String → Except String Unit

/-- Issue one mutation call per name, in listing order, stopping at the
first failure (the `Fatalf` in the loop body terminates the process, so no
later call is attempted and nothing is retried or rolled back). -/
def issueMutations (op : String → Except String Unit) (mk : String → ApiCall) :
    List String → List ApiCall × Except String Unit
  | [] => ([], .ok ())
  | n :: ns =>
      match op n with
      | .error e => ([mk n], .error e)
      | .ok _ =>
          let r := issueMutations op mk ns
          (mk n :: r.1, r.2)

/-- One secret's sweep under the failure model (cleaner.go lines 261-386):
list the ENABLED versions (fatal on listing failure, runtime panic on an
empty listing), disable `versions[1:]` in order (fatal on the first
failure; no calls in dry-run), then list the DISABLED versions (fatal on
failure) and destroy the suffix beyond `keepVersions` (fatal on the first
failure; no calls in dry-run). -/
def sweepSecretE (env : Env) (dryrun : Bool) (keepVersions : Nat) (secret : String) :
    List ApiCall × Except String Unit :=
  match env.listVersionsE secret .ENABLED with
  | .error e => ([.listVersionsA secret .ENABLED], .error e)
  | .ok versions =>
      match versions with
      | [] => ([.listVersionsA secret .ENABLED], .error "panic: index out of range")
      | _ :: rest =>
          let rd := if dryrun then (([], .ok ()) : List ApiCall × Except String Unit)
            else issueMutations env.disableE ApiCall.disableA (rest.map SecretVersion.name)
          match rd.2 with
          | .error e => (.listVersionsA secret .ENABLED :: rd.1, .error e)
          | .ok _ =>
              match env.listVersionsE secret .DISABLED with
              | .error e =>
                  (.listVersionsA secret .ENABLED :: rd.1
                      ++ [.listVersionsA secret .DISABLED], .error e)
              | .ok disabled =>
                  let rx := if dryrun then (([], .ok ()) : List ApiCall × Except String Unit)
                    else issueMutations env.destroyE ApiCall.destroyA
                      ((destroySelection disabled keepVersions).map SecretVersion.name)
                  (.listVersionsA secret .ENABLED :: rd.1
                      ++ .listVersionsA secret .DISABLED :: rx.1, rx.2)

/-- The whole run over the listed secrets (cleaner.go lines 468-471),
strictly sequentially in listing order; a fatal outcome stops the loop. -/
def runSecrets (env : Env) (dryrun : Bool) (keepVersions : Nat) :
    List String → List ApiCall × Except String Unit
  | [] => ([], .ok ())
  | sec :: more =>
      let r := sweepSecretE env dryrun keepVersions sec
      match r.2 with
      | .error e => (r.1, .error e)
      | .ok _ =>
          let r2 := runSecrets env dryrun keepVersions more
          (r.1 ++ r2.1, r2.2)

/-- C7: the first failing store call is fatal to the whole run: the run's
outcome is that error (the process terminates with nonzero exit after
logging it), and its call trace is exactly the calls of the fully-swept
preceding secrets followed by the failing secret's calls up to and
including the failing call - so nothing is retried, nothing is rolled back,
and no call is issued for any secret listed after the failure. -/
theorem run_stops_at_first_failure (env : Env) (dryrun : Bool) (keepVersions : Nat)
    (xs : List String) (y : String) (ys : List String) (e : String)
    (hok : ∀ x ∈ xs, (sweepSecretE env dryrun keepVersions x).2 = .ok ())
    (hfail : (sweepSecretE env dryrun keepVersions y).2 = .error e) :
    runSecrets env dryrun keepVersions (xs ++ y :: ys)
      = ((xs.map (fun x => (sweepSecretE env dryrun keepVersions x).1)).flatten
          ++ (sweepSecretE env dryrun keepVersions y).1, .error e) := by
  induction xs with
  | nil =>
      rw [List.nil_append]
      unfold runSecrets
      dsimp only
      rw [hfail]
      simp
  | cons x xs ih =>
      have hx : (sweepSecretE env dryrun keepVersions x).2 = .ok () :=
        hok x (List.mem_cons_self x xs)
      have ih2 := ih (fun z hz => hok z (List.mem_cons_of_mem x hz))
      rw [List.cons_append]
      unfold runSecrets
      dsimp only
      rw [hx, ih2]
      simp

/-- A concrete environment for the failure-model witness: secrets with two
enabled versions each; disabling version "a1" (reached while sweeping the
second secret) fails. -/
def envW : Env :=
  ⟨fun secret st =>
    match st with
    | .ENABLED =>
        if secret = "s1" then .ok [⟨"p2", 2, 0⟩, ⟨"p1", 1, 0⟩]
        else .ok [⟨"a2", 2, 0⟩, ⟨"a1", 1, 0⟩]
    | _ => .ok [],
  fun nm => if nm = "a1" then .error "rpc failed" else .ok (),
  fun _ => .ok ()⟩

theorem run_stops_at_first_failure_witness :
    runSecrets envW false 2 (["s1"] ++ "s2" :: ["s3"])
      = ((["s1"].map (fun x => (sweepSecretE envW false 2 x).1)).flatten
          ++ (sweepSecretE envW false 2 "s2").1, .error "rpc failed") :=
  run_stops_at_first_failure envW false 2 ["s1"] "s2" ["s3"] "rpc failed"
    (by intro x hx; rw [List.mem_singleton] at hx; rw [hx]; rfl)
    (by rfl)

end SecretsCleaner
